import Mathlib

set_option autoImplicit false

deriving instance DecidableEq for Except

namespace Invoke

/-!  Shallow embedding of the task-execution engine: the `Executor` from
`invoke/executor.py`, together with the `Collection` namespace resolver and the
`Task`/`Call` value objects it manipulates.  Dotted task paths are modelled as
lists of segments (the result of splitting on `"."`). -/

/-- A task: identifier, optional declared name, contextualized flag, pre-tasks.
The pre-task field holds `Task` objects, per the data model ("ordered sequence
of pre-tasks (each a Task)").  The identifier stands for Python object
identity: distinct tasks carry distinct identifiers, so structural equality of
the embedding coincides with the identity comparison Python uses for `Task`. -/
inductive Task : Type where
  | mk : Nat → Option String → Bool → List Task → Task

def Task.id : Task → Nat
  | .mk i _ _ _ => i

def Task.name : Task → Option String
  | .mk _ n _ _ => n

def Task.contextualized : Task → Bool
  | .mk _ _ c _ => c

def Task.pre : Task → List Task
  | .mk _ _ _ p => p

mutual

def Task.decEq : (a b : Task) → Decidable (a = b)
  | .mk i n c p, .mk i' n' c' p' =>
    if h1 : i = i' then
      if h2 : n = n' then
        if h3 : c = c' then
          match Task.decEqList p p' with
          | isTrue h4 => isTrue (by rw [h1, h2, h3, h4])
          | isFalse h4 => isFalse (fun h => by cases h; exact h4 rfl)
        else isFalse (fun h => by cases h; exact h3 rfl)
      else isFalse (fun h => by cases h; exact h2 rfl)
    else isFalse (fun h => by cases h; exact h1 rfl)

def Task.decEqList : (a b : List Task) → Decidable (a = b)
  | [], [] => isTrue rfl
  | [], _ :: _ => isFalse (fun h => List.noConfusion h)
  | _ :: _, [] => isFalse (fun h => List.noConfusion h)
  | x :: xs, y :: ys =>
    match Task.decEq x y, Task.decEqList xs ys with
    | isTrue h1, isTrue h2 => isTrue (by rw [h1, h2])
    | isFalse h1, _ => isFalse (fun h => by cases h; exact h1 rfl)
    | _, isFalse h2 => isFalse (fun h => by cases h; exact h2 rfl)

end

instance : DecidableEq Task := Task.decEq

/-- A configuration mapping (a Python dict from string keys to values). -/
abbrev Config := List (String × Nat)

/-- Values flowing into and out of task bodies; a `ctx` value is the cloned,
merged `Context` a contextualized task receives as leading argument. -/
inductive Value : Type where
  | nat : Nat → Value
  | ctx : Config → Value
deriving DecidableEq

/-- `Call`: a Task plus bound positional args and keyword args. -/
structure Call where
  task : Task
  args : List Value
  kwargs : List (String × Value)
deriving DecidableEq

/-- A namespace node: optional name, task map (aliases included), subcollection
map, optional default-task name, own configuration. -/
inductive Collection : Type where
  | mk : Option String → List (String × Task) → List (String × Collection) →
         Option String → Config → Collection

def Collection.name : Collection → Option String
  | .mk n _ _ _ _ => n

def Collection.tasks : Collection → List (String × Task)
  | .mk _ t _ _ _ => t

def Collection.collections : Collection → List (String × Collection)
  | .mk _ _ c _ _ => c

def Collection.defaultName : Collection → Option String
  | .mk _ _ _ d _ => d

def Collection.configEntries : Collection → Config
  | .mk _ _ _ _ cfg => cfg

mutual

def Collection.decEq : (a b : Collection) → Decidable (a = b)
  | .mk n t c d cfg, .mk n' t' c' d' cfg' =>
    if h1 : n = n' then
      if h2 : t = t' then
        if h4 : d = d' then
          if h5 : cfg = cfg' then
            match Collection.decEqList c c' with
            | isTrue h3 => isTrue (by rw [h1, h2, h3, h4, h5])
            | isFalse h3 => isFalse (fun h => by cases h; exact h3 rfl)
          else isFalse (fun h => by cases h; exact h5 rfl)
        else isFalse (fun h => by cases h; exact h4 rfl)
      else isFalse (fun h => by cases h; exact h2 rfl)
    else isFalse (fun h => by cases h; exact h1 rfl)

def Collection.decEqList : (a b : List (String × Collection)) → Decidable (a = b)
  | [], [] => isTrue rfl
  | [], _ :: _ => isFalse (fun h => List.noConfusion h)
  | _ :: _, [] => isFalse (fun h => List.noConfusion h)
  | (k, v) :: xs, (k', v') :: ys =>
    if h0 : k = k' then
      match Collection.decEq v v', Collection.decEqList xs ys with
      | isTrue h1, isTrue h2 => isTrue (by rw [h0, h1, h2])
      | isFalse h1, _ => isFalse (fun h => by cases h; exact h1 rfl)
      | _, isFalse h2 => isFalse (fun h => by cases h; exact h2 rfl)
    else isFalse (fun h => by cases h; exact h0 rfl)

end

instance : DecidableEq Collection := Collection.decEq

/-! ### Association-list maps with Python dict semantics -/

/-- Python `d[k] = v`: replace in place if the key is present, else append. -/
def mapSet {κ α : Type} [DecidableEq κ] (m : List (κ × α)) (k : κ) (v : α) :
    List (κ × α) :=
  if m.any (fun kv => kv.1 = k) then
    m.map (fun kv => if kv.1 = k then (k, v) else kv)
  else m ++ [(k, v)]

/-- Python `d.get(k)`. -/
def mapGet {κ α : Type} [DecidableEq κ] (m : List (κ × α)) (k : κ) : Option α :=
  (m.find? (fun kv => kv.1 = k)).map (fun kv => kv.2)

/-- Python `d.update(u)`: set every key of `u` into `d`, in order. -/
def mapUpdate {κ α : Type} [DecidableEq κ] (m u : List (κ × α)) : List (κ × α) :=
  u.foldl (fun acc kv => mapSet acc kv.1 kv.2) m

/-! ### Collection operations

The `Collection` class itself is not part of the sources at hand (only its
test suite is), so its operations are modelled from the spec. -/

/-- A dotted path, already split on the namespace separator `"."`; the empty
path is `[]`. -/
abbrev Path := List String

inductive LookupErr : Type where
  | taskNotFound : LookupErr
  | noDefaultTask : LookupErr
deriving DecidableEq

inductive CollErr : Type where
  | missingName : CollErr
  | nameConflict : CollErr
  | multipleDefaults : CollErr
deriving DecidableEq

def Collection.findTask (c : Collection) (k : String) : Option Task :=
  mapGet c.tasks k

def Collection.findColl (c : Collection) (k : String) : Option Collection :=
  mapGet c.collections k

def Collection.setTasks : Collection → List (String × Task) → Collection
  | .mk n _ cs d cfg, ts => .mk n ts cs d cfg

def Collection.setCollections : Collection → List (String × Collection) → Collection
  | .mk n ts _ d cfg, cs => .mk n ts cs d cfg

def Collection.setDefaultName : Collection → Option String → Collection
  | .mk n ts cs _ cfg, d => .mk n ts cs d cfg

/-- Modelled from the spec: `Collection.add_task(task, name?, aliases, default)`
(the class is absent from the sources; only its tests are present).  Registers
`task` under `name` (explicit arg, else the task's own declared name); fails
with `MissingName` if no name is derivable, with `NameConflict` if the name or
any alias already denotes a subcollection, and with `MultipleDefaults` if
`default` is set and the node already has a different default entry. -/
def Collection.add_task (c : Collection) (t : Task) (name : Option String)
    (aliases : List String) (default : Bool) : Except CollErr Collection :=
  match name.orElse (fun _ => t.name) with
  | none => .error .missingName
  | some n =>
    if (n :: aliases).any (fun k => (c.findColl k).isSome) then
      .error .nameConflict
    else if default && c.defaultName.any (fun d => d ≠ n) then
      .error .multipleDefaults
    else
      let c := c.setTasks ((n :: aliases).foldl (fun m k => mapSet m k t) c.tasks)
      .ok (if default then c.setDefaultName (some n) else c)

/-- Modelled from the spec: `Collection.add_collection(collection, name?)` (the
class is absent from the sources; only its tests are present).  Registers a
child namespace under `name` (explicit arg, else the child's own name); fails
with `MissingName` if nameless and with `NameConflict` if a task is already
registered under that name. -/
def Collection.add_collection (c : Collection) (sub : Collection)
    (name : Option String) : Except CollErr Collection :=
  match name.orElse (fun _ => sub.name) with
  | none => .error .missingName
  | some n =>
    if (c.findTask n).isSome then .error .nameConflict
    else .ok (c.setCollections (mapSet c.collections n sub))

/-- Modelled from the spec: `Collection.lookup(dotted_path)` (the class is
absent from the sources; only its tests are present).  Consume segments
left-to-right: a segment matching a task/alias key with no further segments
returns that task; a segment matching a subcollection key descends; an empty
path returns the node's default task if set, else fails with `NoDefaultTask`;
any unmatched segment fails with `TaskNotFound`. -/
def Collection.lookup (c : Collection) : Path → Except LookupErr Task
  | [] =>
    match c.defaultName with
    | none => .error .noDefaultTask
    | some d =>
      match c.findTask d with
      | some t => .ok t
      | none => .error .noDefaultTask
  | s :: rest =>
    match c.findTask s with
    | some t => if rest = [] then .ok t else .error .taskNotFound
    | none =>
      match c.findColl s with
      | some sub => sub.lookup rest
      | none => .error .taskNotFound

/-- Modelled from the spec: `Collection.configuration(dotted_path)` (the class
is absent from the sources; only its tests are present).  Walk the path's
segments from the root, accumulating each visited node's own configuration
mapping, deeper entries overriding shallower ones on key collision. -/
def Collection.configuration (c : Collection) : Path → Config
  | [] => mapUpdate [] c.configEntries
  | s :: rest =>
    match c.findColl s with
    | some sub => mapUpdate (mapUpdate [] c.configEntries) (sub.configuration rest)
    | none => mapUpdate [] c.configEntries

/-- Boolean form of the namespace invariant: no local name is simultaneously a
task key and a subcollection key. -/
def Collection.keysDisjoint (c : Collection) : Bool :=
  c.tasks.all (fun kv => !(c.collections.any (fun kc => kc.1 = kv.1)))

/-! ### Executor (`invoke/executor.py`) -/

/-- An element of the execution sequence: a bare `Task` or a bound `Call`. -/
inductive Exec : Type where
  | task : Task → Exec
  | call : Call → Exec

/-- `task.pre` as read by `expand_tasks`; on a `Call` the attribute delegates
to the wrapped task. -/
def Exec.pre : Exec → List Task
  | .task t => t.pre
  | .call c => c.task.pre

/-- Modelled from the spec: the value equality Python's `in` uses during
deduplication (`Task.__eq__`/`Call.__eq__` live in `tasks.py`, which is absent
from the sources).  Two Calls are equal iff they reference the same Task and
carry equal args/kwargs; a bare Task is compared by its own identity; a Call
binding no explicit args/kwargs denotes the same invocation as its bare Task,
so the two compare equal — this is what makes a pre-task entry dedupe against
the same task requested standalone. -/
def dedupEq : Exec → Exec → Bool
  | .task t, .task t' => decide (t = t')
  | .call c, .call c' =>
    decide (c.task = c'.task) && decide (c.args = c'.args) &&
      decide (c.kwargs = c'.kwargs)
  | .task t, .call c => decide (c.task = t) && c.args.isEmpty && c.kwargs.isEmpty
  | .call c, .task t => decide (c.task = t) && c.args.isEmpty && c.kwargs.isEmpty

/-- `Executor.expand_tasks` restricted to bare `Task` lists (the shape of every
`pre` attribute): emit each task's recursively expanded pre-tasks, then the
task itself. -/
def expandT : List Task → List Exec
  | [] => []
  | Task.mk i n c p :: rest =>
    expandT p ++ (Exec.task (Task.mk i n c p) :: expandT rest)

/-- `Executor.expand_tasks`: for each element, extend with the recursive
expansion of its pre-tasks, then append the element itself. -/
def expand_tasks : List Exec → List Exec
  | [] => []
  | e :: rest => expandT e.pre ++ (e :: expand_tasks rest)

/-- The dedupe loop of `Executor.execute`: `deduped = []`, and each task is
appended only when not already present (Python `in`, i.e. the `dedupEq` value
equality). -/
def dedupeLoop (acc : List Exec) : List Exec → List Exec
  | [] => acc
  | t :: rest =>
    if acc.any (fun d => dedupEq t d) then dedupeLoop acc rest
    else dedupeLoop (acc ++ [t]) rest

/-- `deduped = ...` branch of `Executor.execute`. -/
def dedupedSeq (expanded : List Exec) (dedupe : Bool) : List Exec :=
  if dedupe then dedupeLoop [] expanded else expanded

/-- External behaviour of task bodies: given a task identifier and the full
argument list and kwargs, the call either returns a value or raises. -/
abbrev Body := Nat → List Value → List (String × Value) → Except String Value

structure Executor where
  collection : Collection
  context : Config

inductive ExecErr : Type where
  | lookupFailure : LookupErr → ExecErr
  | bodyFailure : String → ExecErr
deriving DecidableEq

/-- One observed task-body invocation: the task's identifier plus the exact
positional arguments (context included, when prepended) and kwargs. -/
structure Invocation where
  taskId : Nat
  args : List Value
  kwargs : List (String × Value)
deriving DecidableEq

/-- The resolve-and-bind comprehension of `Executor.execute`
(`[Call(self.collection[name], **kwargs) for name, kwargs in tasks]`): looked
up left to right, the first failure aborting, all before any execution. -/
def resolveAll (c : Collection) : List (Path × List (String × Value)) →
    Except LookupErr (List Call)
  | [] => .ok []
  | (n, kw) :: rest => do
    let t ← c.lookup n
    let cs ← resolveAll c rest
    pure (⟨t, [], kw⟩ :: cs)

/-- Destructuring at the top of the run loop: a `Call` contributes its task and
bound args/kwargs, a bare `Task` empty args and kwargs. -/
def entryTask : Exec → Task
  | .task t => t
  | .call c => c.task

def entryArgs : Exec → List Value
  | .task _ => []
  | .call c => c.args

def entryKwargs : Exec → List (String × Value)
  | .task _ => []
  | .call c => c.kwargs

/-- `Executor._execute`'s context construction: clone the base context and
update it with `collection.configuration(name)`. -/
def contextFor (ex : Executor) (name : Path) : Config :=
  mapUpdate ex.context (ex.collection.configuration name)

/-- `Executor._execute`'s argument assembly: a contextualized task gets the
merged context prepended ahead of the explicit positional args. -/
def finalArgs (ex : Executor) (name : Path) (t : Task) (args : List Value) :
    List Value :=
  if t.contextualized then Value.ctx (contextFor ex name) :: args else args

/-- The run loop of `Executor.execute`: invoke each entry in order, recording
`results[task] = result`; a raising body aborts the loop, discarding the
results accumulated so far.  The second component is the trace of performed
body invocations.  `name` is the single name value the loop uses for every
entry: the loop variable leaked from the resolve comprehension (Python 2
scoping), i.e. the last spec's name. -/
def runLoop (ex : Executor) (body : Body) (name : Path) :
    List Exec → List (Task × Value) → List Invocation →
    Except ExecErr (List (Task × Value)) × List Invocation
  | [], results, trace => (.ok results, trace)
  | e :: rest, results, trace =>
    let t := entryTask e
    let args := finalArgs ex name t (entryArgs e)
    let kwargs := entryKwargs e
    match body t.id args kwargs with
    | .error msg => (.error (.bodyFailure msg), trace ++ [⟨t.id, args, kwargs⟩])
    | .ok v =>
      runLoop ex body name rest (mapSet results t v) (trace ++ [⟨t.id, args, kwargs⟩])

/-- `Executor.execute`: resolve every spec to a `Call`, expand pre-tasks,
dedupe if requested, then run.  Returns the outcome (results mapping or error)
paired with the trace of body invocations that took place. -/
def Executor.execute (ex : Executor) (body : Body)
    (specs : List (Path × List (String × Value))) (dedupe : Bool) :
    Except ExecErr (List (Task × Value)) × List Invocation :=
  match resolveAll ex.collection specs with
  | .error e => (.error (.lookupFailure e), [])
  | .ok calls =>
    let name := ((specs.map (fun s => s.1)).getLast?).getD []
    let expanded := expand_tasks (calls.map Exec.call)
    runLoop ex body name (dedupedSeq expanded dedupe) [] []

/-! ### Sizes of task forests -/

/-- Total number of nodes in a forest of tasks (each task and, recursively,
all of its pre-tasks). -/
def sizeList : List Task → Nat
  | [] => 0
  | Task.mk _ _ _ p :: rest => 1 + sizeList p + sizeList rest

/-- Total number of nodes an `Exec` list will expand to. -/
def sizeListE : List Exec → Nat
  | [] => 0
  | e :: rest => sizeList e.pre + 1 + sizeListE rest

/-- Duplicate removal as the spec words it: keep each entry's first
occurrence, dropping every later entry that is value-equal (per `dedupEq`) to
an earlier one. -/
def firstSeen : List Exec → List Exec
  | [] => []
  | x :: xs => x :: firstSeen (xs.filter (fun y => !(dedupEq y x)))
termination_by l => l.length
decreasing_by
  exact Nat.lt_succ_of_le (List.length_filter_le _ _)

/-! Fixture for dedupe across a pre-task and the same task requested
standalone: `dTA` declares `dTB` as its pre-task, and both are requested. -/

def dTB : Task := .mk 101 (some "b") false []

def dTA : Task := .mk 102 (some "a") false [dTB]

def dColl : Collection := .mk (some "root") [("a", dTA), ("b", dTB)] [] none []

def dBody : Body := fun _ _ _ => .ok (.nat 0)

/-! Fixture for the context-merging behaviour of `execute`: two subcollections
with conflicting configuration values, each holding one contextualized task. -/

def cTask1 : Task := .mk 1 (some "t1") true []

def cTask2 : Task := .mk 2 (some "t2") true []

def cSub1 : Collection := .mk (some "sub1") [("t1", cTask1)] [] none [("k", 1)]

def cSub2 : Collection := .mk (some "sub2") [("t2", cTask2)] [] none [("k", 2)]

def cRoot : Collection :=
  .mk (some "root") [] [("sub1", cSub1), ("sub2", cSub2)] none []

def cOkBody : Body := fun _ _ _ => .ok (.nat 0)

/-! ### Witness fixtures -/

def wTask : Task := .mk 10 (some "good") false []

def wColl : Collection := .mk (some "root") [("good", wTask)] [] none []

def wOkBody : Body := fun _ _ _ => .ok (.nat 0)

def wPre : Task := .mk 3 (some "p") false []

def wMain : Task := .mk 4 (some "q") false [wPre]

def wFailBody : Body := fun i _ _ => if i = 3 then .error "boom" else .ok (.nat 7)

def wT : Task := .mk 5 (some "r") false []

def wCall1 : Call := ⟨wT, [], [("x", .nat 1)]⟩

def wCall2 : Call := ⟨wT, [], [("x", .nat 2)]⟩

def wBody2 : Body := fun _ _ kw => .ok (.nat (if kw = [("x", .nat 1)] then 1 else 2))

def wSubColl : Collection := .mk (some "sub") [] [] none []

def wCollWithSub : Collection := .mk (some "root") [] [("sub", wSubColl)] none []

def wCollWithTask : Collection := .mk (some "root") [("sub", wTask)] [] none []

def wDefTask : Task := .mk 6 (some "dt") false []

def wSubDef : Collection := .mk (some "subd") [("dt", wDefTask)] [] (some "dt") []

def wRootC8 : Collection :=
  .mk (some "root") [] [("subd", wSubDef), ("nodef", wSubColl)] none []

/-! ### Theorems -/

theorem expandT_length : ∀ ts : List Task, (expandT ts).length = sizeList ts
  | [] => by simp [expandT, sizeList]
  | Task.mk i n c p :: rest => by
    have hp := expandT_length p
    have hr := expandT_length rest
    simp [expandT, sizeList, hp, hr]
    omega

theorem expandT_eq_expand_tasks :
    ∀ ts : List Task, expandT ts = expand_tasks (ts.map Exec.task)
  | [] => by simp [expandT, expand_tasks]
  | Task.mk i n c p :: rest => by
    have ih := expandT_eq_expand_tasks rest
    simp [expandT, expand_tasks, Exec.pre, Task.pre, ih]

/-- C2: `expand_tasks` is the depth-first pre-order expansion: it equals the
concatenation, over each element of its input, of the full recursive expansion
of that element's pre-tasks followed by the element itself. -/
theorem expand_tasks_flatMap (ts : List Exec) :
    expand_tasks ts =
      ts.flatMap (fun e => expand_tasks (e.pre.map Exec.task) ++ [e]) := by
  induction ts with
  | nil => rfl
  | cons e rest ih =>
    simp [expand_tasks, ih, ← expandT_eq_expand_tasks]

/-- C10: `expand_tasks` is total on the embedded (hence acyclic) pre-task
structure and yields a finite list whose length is exactly the number of
reachable task nodes. -/
theorem expand_tasks_length (ts : List Exec) :
    (expand_tasks ts).length = sizeListE ts := by
  induction ts with
  | nil => rfl
  | cons e rest ih =>
    simp [expand_tasks, sizeListE, ih, expandT_length]
    omega


theorem execute_ok_unfold (ex : Executor) (body : Body)
    (specs : List (Path × List (String × Value))) (dedupe : Bool)
    (calls : List Call) (h : resolveAll ex.collection specs = .ok calls) :
    ex.execute body specs dedupe =
      runLoop ex body ((specs.map (fun s => s.1)).getLast?.getD [])
        (dedupedSeq (expand_tasks (calls.map Exec.call)) dedupe) [] [] := by
  simp [Executor.execute, h]

theorem dedupEq_symm (a b : Exec) : dedupEq a b = dedupEq b a := by
  cases a <;> cases b <;> simp [dedupEq, eq_comm, Bool.and_assoc, Bool.and_comm]

theorem dedupEq_trans {a b c : Exec} (h1 : dedupEq a b = true)
    (h2 : dedupEq b c = true) : dedupEq a c = true := by
  cases a <;> cases b <;> cases c <;> simp_all [dedupEq]

theorem dedupeLoop_eq_firstSeen (l : List Exec) :
    ∀ acc : List Exec,
      dedupeLoop acc l =
        acc ++ firstSeen (l.filter (fun y => !(acc.any (fun d => dedupEq y d)))) := by
  induction l with
  | nil => intro acc; simp [dedupeLoop, firstSeen]
  | cons t rest ih =>
    intro acc
    by_cases h : acc.any (fun d => dedupEq t d) = true
    · simp [dedupeLoop, h, ih, List.filter_cons]
    · simp [dedupeLoop, h, ih, List.filter_cons, firstSeen, List.filter_filter]
      congr 1
      apply List.filter_congr
      intro y _
      cases hy1 : dedupEq y t <;>
        cases hy2 : acc.any (fun d => dedupEq y d) <;>
          simp [List.any_append, List.any_cons, hy1, hy2]

theorem firstSeen_countP (l : List Exec) :
    ∀ x : Exec,
      (firstSeen l).countP (fun y => dedupEq y x) =
        if l.any (fun y => dedupEq y x) then 1 else 0 := by
  induction l using firstSeen.induct with
  | case1 => intro x; simp [firstSeen]
  | case2 y ys ih =>
    intro x
    by_cases hy : dedupEq y x = true
    · have hxy : dedupEq x y = true := by rw [dedupEq_symm]; exact hy
      have hnone : (ys.filter (fun z => !(dedupEq z y))).any
          (fun z => dedupEq z x) = false := by
        cases hval : (ys.filter (fun z => !(dedupEq z y))).any
            (fun z => dedupEq z x) with
        | false => rfl
        | true =>
          obtain ⟨z, hz, hzx⟩ := List.any_eq_true.mp hval
          obtain ⟨-, hzy⟩ := List.mem_filter.mp hz
          rw [dedupEq_trans hzx hxy] at hzy
          simp at hzy
      simp [firstSeen, List.countP_cons, hy, ih, hnone, List.any_cons]
    · have hfil : (ys.filter (fun z => !(dedupEq z y))).any
          (fun z => dedupEq z x) = ys.any (fun z => dedupEq z x) := by
        cases hval : ys.any (fun z => dedupEq z x) with
        | true =>
          obtain ⟨z, hz, hzx⟩ := List.any_eq_true.mp hval
          refine List.any_eq_true.mpr ⟨z, List.mem_filter.mpr ⟨hz, ?_⟩, hzx⟩
          cases hzy : dedupEq z y with
          | false => rfl
          | true =>
            have hyz : dedupEq y z = true := by rw [dedupEq_symm]; exact hzy
            exact absurd (dedupEq_trans hyz hzx) hy
        | false =>
          cases hval2 : (ys.filter (fun z => !(dedupEq z y))).any
              (fun z => dedupEq z x) with
          | false => rfl
          | true =>
            obtain ⟨z, hz, hzx⟩ := List.any_eq_true.mp hval2
            obtain ⟨hzmem, -⟩ := List.mem_filter.mp hz
            rw [List.any_eq_true.mpr ⟨z, hzmem, hzx⟩] at hval
            simp at hval
      simp [firstSeen, List.countP_cons, hy, ih, hfil, List.any_cons]

/-- C3: with `dedupe` on, the executed sequence is the expanded sequence with
every later entry that is value-equal (per the modelled `Task`/`Call` dedup
equality) to an earlier one removed, first-seen order preserved — each
equivalence class of the expansion keeping exactly one entry — while with
`dedupe` off no entry is dropped; concretely, when task `b` is both the
pre-task of a requested task `a` and requested standalone, `b`'s body is
invoked exactly once in the whole `execute` call. -/
theorem dedupedSeq_correct :
    (∀ expanded : List Exec, dedupedSeq expanded true = firstSeen expanded) ∧
    (∀ (expanded : List Exec) (x : Exec),
      (dedupedSeq expanded true).countP (fun y => dedupEq y x) =
        if expanded.any (fun y => dedupEq y x) then 1 else 0) ∧
    (∀ expanded : List Exec, dedupedSeq expanded false = expanded) ∧
    ((Executor.mk dColl []).execute dBody [(["a"], []), (["b"], [])] true).2 =
      [⟨101, [], []⟩, ⟨102, [], []⟩] := by
  have h1 : ∀ expanded : List Exec, dedupedSeq expanded true = firstSeen expanded := by
    intro expanded
    have := dedupeLoop_eq_firstSeen expanded []
    simpa [dedupedSeq] using this
  refine ⟨h1, fun expanded x => by rw [h1]; exact firstSeen_countP expanded x,
    fun expanded => rfl, ?_⟩
  have hres : resolveAll dColl [(["a"], []), (["b"], [])] =
      .ok [⟨dTA, [], []⟩, ⟨dTB, [], []⟩] := by decide
  have hexp : expand_tasks [Exec.call ⟨dTA, [], []⟩, Exec.call ⟨dTB, [], []⟩] =
      [Exec.task dTB, Exec.call ⟨dTA, [], []⟩, Exec.call ⟨dTB, [], []⟩] := by
    simp [expand_tasks, expandT, Exec.pre, dTA, dTB, Task.pre]
  rw [execute_ok_unfold (Executor.mk dColl []) dBody
    [(["a"], []), (["b"], [])] true [⟨dTA, [], []⟩, ⟨dTB, [], []⟩] hres]
  simp only [List.map_cons, List.map_nil]
  rw [hexp]
  decide

/-- C4: a resolution failure for any spec aborts the whole `execute` call with
that failure, before any task body has been invoked (the invocation trace is
empty, so there is no partial execution and no results mapping). -/
theorem execute_resolution_failfast (ex : Executor) (body : Body)
    (specs : List (Path × List (String × Value))) (dedupe : Bool) (e : LookupErr)
    (h : resolveAll ex.collection specs = .error e) :
    ex.execute body specs dedupe = (.error (.lookupFailure e), []) := by
  simp [Executor.execute, h]

/-- C5: when an entry's task body raises, the run loop stops at that entry:
the failure is propagated (no results mapping in the outcome), the trace gains
only that entry's invocation, and no entry of the remaining sequence — in
particular no task whose pre-task just failed — is ever invoked. -/
theorem runLoop_body_failure (ex : Executor) (body : Body) (name : Path)
    (e : Exec) (rest : List Exec) (results : List (Task × Value))
    (trace : List Invocation) (msg : String)
    (h : body (entryTask e).id (finalArgs ex name (entryTask e) (entryArgs e))
        (entryKwargs e) = .error msg) :
    runLoop ex body name (e :: rest) results trace =
      (.error (.bodyFailure msg),
       trace ++ [⟨(entryTask e).id,
                  finalArgs ex name (entryTask e) (entryArgs e),
                  entryKwargs e⟩]) := by
  simp [runLoop, h]

theorem mapGet_mapSet_self {κ α : Type} [DecidableEq κ]
    (m : List (κ × α)) (k : κ) (v : α) : mapGet (mapSet m k v) k = some v := by
  unfold mapSet
  by_cases h : m.any (fun kv => kv.1 = k) = true
  · rw [if_pos h]
    induction m with
    | nil => simp at h
    | cons a rest ih =>
      by_cases ha : a.1 = k
      · simp [mapGet, List.find?_cons, ha]
      · have hrest : rest.any (fun kv => kv.1 = k) = true := by
          simp only [List.any_cons] at h
          rcases Bool.or_eq_true_iff.mp h with h' | h'
          · exact absurd (by simpa using h') ha
          · exact h'
        have := ih hrest
        simpa [mapGet, List.find?_cons, ha] using this
  · rw [if_neg h]
    have hnone : m.find? (fun kv => kv.1 = k) = none := by
      rw [List.find?_eq_none]
      intro x hx
      simp only [decide_eq_true_eq]
      intro hk
      exact h (List.any_eq_true.mpr ⟨x, hx, by simp [hk]⟩)
    simp [mapGet, List.find?_append, hnone]

theorem mapSet_keys_nodup (m : List (Task × Value)) (k : Task) (v : Value)
    (h : (m.map Prod.fst).Nodup) : ((mapSet m k v).map Prod.fst).Nodup := by
  unfold mapSet
  by_cases hany : m.any (fun kv => kv.1 = k) = true
  · rw [if_pos hany]
    have heq : (m.map (fun kv => if kv.1 = k then (k, v) else kv)).map Prod.fst =
        m.map Prod.fst := by
      rw [List.map_map]
      apply List.map_congr_left
      intro x _
      by_cases hx : x.1 = k <;> simp [hx]
    rw [heq]
    exact h
  · rw [if_neg hany]
    rw [List.map_append]
    simp only [List.map_cons, List.map_nil]
    rw [List.nodup_append]
    refine ⟨h, List.nodup_singleton k, ?_⟩
    intro x hx
    simp only [List.mem_singleton]
    intro hk
    subst hk
    obtain ⟨p, hp, hfst⟩ := List.mem_map.mp hx
    exact hany (List.any_eq_true.mpr ⟨p, hp, by simp [hfst]⟩)

theorem runLoop_nodup_keys (ex : Executor) (body : Body) (name : Path) :
    ∀ (l : List Exec) (res : List (Task × Value)) (tr : List Invocation)
      (res' : List (Task × Value)) (tr' : List Invocation),
      (res.map Prod.fst).Nodup → runLoop ex body name l res tr = (.ok res', tr') →
      (res'.map Prod.fst).Nodup := by
  intro l
  induction l with
  | nil =>
    intro res tr res' tr' hnd hrun
    simp only [runLoop] at hrun
    cases hrun
    exact hnd
  | cons e rest ih =>
    intro res tr res' tr' hnd hrun
    simp only [runLoop] at hrun
    cases hbody : body (entryTask e).id
        (finalArgs ex name (entryTask e) (entryArgs e)) (entryKwargs e) with
    | error msg =>
      rw [hbody] at hrun
      simp at hrun
    | ok v =>
      rw [hbody] at hrun
      exact ih (mapSet res (entryTask e) v) _ res' tr'
        (mapSet_keys_nodup res (entryTask e) v hnd) hrun

/-- C6: the results mapping is keyed by the underlying `Task` and holds at
most one entry per task: writing a task's result overwrites any earlier entry
for that task (so a later execution of the same task wins), and a run started
with duplicate-free keys ends with duplicate-free keys. -/
theorem results_one_per_task :
    (∀ (d : List (Task × Value)) (k : Task) (v : Value),
      mapGet (mapSet d k v) k = some v) ∧
    (∀ (ex : Executor) (body : Body) (name : Path) (e₁ e₂ : Exec)
        (v₁ v₂ : Value),
      body (entryTask e₁).id (finalArgs ex name (entryTask e₁) (entryArgs e₁))
          (entryKwargs e₁) = .ok v₁ →
      body (entryTask e₂).id (finalArgs ex name (entryTask e₂) (entryArgs e₂))
          (entryKwargs e₂) = .ok v₂ →
      (runLoop ex body name [e₁, e₂] [] []).1 =
        .ok (mapSet (mapSet [] (entryTask e₁) v₁) (entryTask e₂) v₂)) ∧
    (∀ (ex : Executor) (body : Body) (name : Path) (l : List Exec)
        (res : List (Task × Value)) (tr : List Invocation)
        (res' : List (Task × Value)) (tr' : List Invocation),
      (res.map Prod.fst).Nodup → runLoop ex body name l res tr = (.ok res', tr') →
      (res'.map Prod.fst).Nodup) := by
  refine ⟨fun d k v => mapGet_mapSet_self d k v, ?_,
    fun ex body name l res tr res' tr' => runLoop_nodup_keys ex body name l res tr res' tr'⟩
  intro ex body name e₁ e₂ v₁ v₂ h₁ h₂
  simp [runLoop, h₁, h₂]

theorem mapGet_isSome {κ α : Type} [DecidableEq κ] (m : List (κ × α)) (k : κ) :
    (mapGet m k).isSome = m.any (fun kv => kv.1 = k) := by
  unfold mapGet
  induction m with
  | nil => simp
  | cons a rest ih =>
    by_cases ha : a.1 = k <;> simp [List.find?_cons, ha, List.any_cons, ih]

theorem mapSet_map_fst {κ α : Type} [DecidableEq κ]
    (m : List (κ × α)) (k : κ) (v : α) :
    (mapSet m k v).map Prod.fst =
      if m.any (fun kv => kv.1 = k) then m.map Prod.fst
      else m.map Prod.fst ++ [k] := by
  unfold mapSet
  by_cases hany : m.any (fun kv => kv.1 = k) = true
  · rw [if_pos hany, if_pos hany, List.map_map]
    apply List.map_congr_left
    intro x _
    by_cases hx : x.1 = k <;> simp [hx]
  · rw [if_neg hany, if_neg hany, List.map_append]
    simp

theorem mapSet_keys_mem {κ α : Type} [DecidableEq κ]
    (m : List (κ × α)) (k : κ) (v : α) (x : κ)
    (hx : x ∈ (mapSet m k v).map Prod.fst) :
    x ∈ m.map Prod.fst ∨ x = k := by
  rw [mapSet_map_fst] at hx
  by_cases hany : m.any (fun kv => kv.1 = k) = true
  · rw [if_pos hany] at hx
    exact Or.inl hx
  · rw [if_neg hany] at hx
    rcases List.mem_append.mp hx with h | h
    · exact Or.inl h
    · exact Or.inr (by simpa using h)

@[simp] theorem setTasks_tasks (c : Collection) (ts : List (String × Task)) :
    (c.setTasks ts).tasks = ts := by
  cases c; rfl

@[simp] theorem setTasks_collections (c : Collection) (ts : List (String × Task)) :
    (c.setTasks ts).collections = c.collections := by
  cases c; rfl

@[simp] theorem setCollections_tasks (c : Collection)
    (cs : List (String × Collection)) : (c.setCollections cs).tasks = c.tasks := by
  cases c; rfl

@[simp] theorem setCollections_collections (c : Collection)
    (cs : List (String × Collection)) : (c.setCollections cs).collections = cs := by
  cases c; rfl

@[simp] theorem setDefaultName_tasks (c : Collection) (d : Option String) :
    (c.setDefaultName d).tasks = c.tasks := by
  cases c; rfl

@[simp] theorem setDefaultName_collections (c : Collection) (d : Option String) :
    (c.setDefaultName d).collections = c.collections := by
  cases c; rfl

theorem keysDisjoint_setDefaultName (c : Collection) (d : Option String) :
    (c.setDefaultName d).keysDisjoint = c.keysDisjoint := by
  cases c; rfl

theorem foldl_mapSet_keys_mem {κ α : Type} [DecidableEq κ]
    (ks : List κ) (v : α) :
    ∀ (m : List (κ × α)) (x : κ),
      x ∈ (ks.foldl (fun acc k => mapSet acc k v) m).map Prod.fst →
      x ∈ m.map Prod.fst ∨ x ∈ ks := by
  induction ks with
  | nil => intro m x hx; exact Or.inl hx
  | cons k ks ih =>
    intro m x hx
    rcases ih (mapSet m k v) x hx with h | h
    · rcases mapSet_keys_mem m k v x h with h' | h'
      · exact Or.inl h'
      · exact Or.inr (by simp [h'])
    · exact Or.inr (List.mem_cons_of_mem _ h)

theorem add_task_preserves_disjoint (c c' : Collection) (t : Task)
    (nm : Option String) (al : List String) (d : Bool)
    (hdis : c.keysDisjoint = true) (h : c.add_task t nm al d = .ok c') :
    c'.keysDisjoint = true := by
  unfold Collection.add_task at h
  split at h
  · exact absurd h (by simp)
  · rename_i n heq
    split at h
    · exact absurd h (by simp)
    · split at h
      · exact absurd h (by simp)
      · rename_i g1 g2
        have key : ∀ x : String,
            x ∈ ((n :: al).foldl (fun m k => mapSet m k t) c.tasks).map Prod.fst →
            (c.collections.any fun kc => kc.1 = x) = false := by
          intro x hx
          rcases foldl_mapSet_keys_mem (n :: al) t c.tasks x hx with hold | hnew
          · obtain ⟨kv, hkv, hfst⟩ := List.mem_map.mp hold
            have hkv' := List.all_eq_true.mp hdis kv hkv
            rw [← hfst]
            simpa using hkv'
          · have hf : (c.findColl x).isSome = false := by
              cases hval : (c.findColl x).isSome with
              | false => rfl
              | true => exact absurd (List.any_eq_true.mpr ⟨x, hnew, hval⟩) g1
            simp only [Collection.findColl, mapGet_isSome] at hf
            exact hf
        cases h
        by_cases hd : d = true
        · rw [if_pos hd, keysDisjoint_setDefaultName]
          rw [Collection.keysDisjoint, List.all_eq_true]
          intro kv hkv
          rw [setTasks_tasks] at hkv
          simp [key kv.1 (List.mem_map.mpr ⟨kv, hkv, rfl⟩)]
        · rw [if_neg hd]
          rw [Collection.keysDisjoint, List.all_eq_true]
          intro kv hkv
          rw [setTasks_tasks] at hkv
          simp [key kv.1 (List.mem_map.mpr ⟨kv, hkv, rfl⟩)]

theorem add_collection_preserves_disjoint (c c' sub : Collection)
    (nm : Option String) (hdis : c.keysDisjoint = true)
    (h : c.add_collection sub nm = .ok c') : c'.keysDisjoint = true := by
  unfold Collection.add_collection at h
  split at h
  · exact absurd h (by simp)
  · rename_i n heq
    split at h
    · exact absurd h (by simp)
    · rename_i ht
      cases h
      rw [Collection.keysDisjoint, List.all_eq_true]
      intro kv hkv
      rw [setCollections_tasks] at hkv
      cases hany : ((c.setCollections (mapSet c.collections n sub)).collections.any
          fun kc => kc.1 = kv.1) with
      | false => simp [hany]
      | true =>
        exfalso
        rw [setCollections_collections] at hany
        obtain ⟨kc, hkc, hfst⟩ := List.any_eq_true.mp hany
        have hmem : kv.1 ∈ (mapSet c.collections n sub).map Prod.fst := by
          refine List.mem_map.mpr ⟨kc, hkc, ?_⟩
          simpa using hfst
        rcases mapSet_keys_mem c.collections n sub kv.1 hmem with hold | hnewn
        · have hdkv := List.all_eq_true.mp hdis kv hkv
          obtain ⟨kc', hkc', hfst'⟩ := List.mem_map.mp hold
          have : (c.collections.any fun kc => kc.1 = kv.1) = true :=
            List.any_eq_true.mpr ⟨kc', hkc', by simp [hfst']⟩
          simp [this] at hdkv
        · apply ht
          rw [Collection.findTask, mapGet_isSome]
          exact List.any_eq_true.mpr ⟨kv, hkv, by simp [hnewn]⟩

/-- C7: registering a task (or any of its aliases) under a name already held
by a subcollection fails with `NameConflict`; registering a subcollection
under a name already held by a task (or alias) fails with `NameConflict`; and
both registration operations preserve the invariant that no local name is
simultaneously a task key and a subcollection key. -/
theorem task_collection_name_conflict :
    (∀ (c : Collection) (t : Task) (nm : Option String) (n : String)
        (al : List String) (d : Bool) (k : String),
      nm.orElse (fun _ => t.name) = some n → k ∈ n :: al →
      (c.findColl k).isSome = true →
      c.add_task t nm al d = .error .nameConflict) ∧
    (∀ (c sub : Collection) (nm : Option String) (n : String),
      nm.orElse (fun _ => sub.name) = some n →
      (c.findTask n).isSome = true →
      c.add_collection sub nm = .error .nameConflict) ∧
    (∀ (c c' : Collection) (t : Task) (nm : Option String) (al : List String)
        (d : Bool),
      c.keysDisjoint = true → c.add_task t nm al d = .ok c' →
      c'.keysDisjoint = true) ∧
    (∀ (c c' sub : Collection) (nm : Option String),
      c.keysDisjoint = true → c.add_collection sub nm = .ok c' →
      c'.keysDisjoint = true) := by
  refine ⟨?_, ?_, fun c c' t nm al d => add_task_preserves_disjoint c c' t nm al d,
    fun c c' sub nm => add_collection_preserves_disjoint c c' sub nm⟩
  · intro c t nm n al d k hn hk hc
    have hany : ((n :: al).any fun k => (c.findColl k).isSome) = true :=
      List.any_eq_true.mpr ⟨k, hk, by simpa using hc⟩
    simp [Collection.add_task, hn, hany]
  · intro c sub nm n hn ht
    simp [Collection.add_collection, hn, ht]

/-- C8: looking up the empty path returns the default task when one is set and
fails with `NoDefaultTask` when none is; a path whose final segment names a
subcollection resolves to that subcollection's default task (failing with
`NoDefaultTask` if it has none); an unmatched segment fails with
`TaskNotFound`. -/
theorem lookup_default_and_errors :
    (∀ c : Collection, c.defaultName = none →
      c.lookup [] = .error .noDefaultTask) ∧
    (∀ (c : Collection) (d : String) (t : Task),
      c.defaultName = some d → c.findTask d = some t → c.lookup [] = .ok t) ∧
    (∀ (c sub : Collection) (s d : String) (t : Task),
      c.findTask s = none → c.findColl s = some sub →
      sub.defaultName = some d → sub.findTask d = some t →
      c.lookup [s] = .ok t) ∧
    (∀ (c sub : Collection) (s : String),
      c.findTask s = none → c.findColl s = some sub →
      sub.defaultName = none → c.lookup [s] = .error .noDefaultTask) ∧
    (∀ (c : Collection) (s : String) (rest : Path),
      c.findTask s = none → c.findColl s = none →
      c.lookup (s :: rest) = .error .taskNotFound) := by
  refine ⟨?_, ?_, ?_, ?_, ?_⟩
  · intro c hd
    simp [Collection.lookup, hd]
  · intro c d t hd ht
    simp [Collection.lookup, hd, ht]
  · intro c sub s d t hts hcs hd ht
    simp [Collection.lookup, hts, hcs, hd, ht]
  · intro c sub s hts hcs hd
    simp [Collection.lookup, hts, hcs, hd]
  · intro c s rest hts hcs
    simp [Collection.lookup, hts, hcs]

theorem expandT_all_tasks :
    ∀ ts : List Task, ∀ e ∈ expandT ts, ∃ t : Task, e = Exec.task t
  | [] => by simp [expandT]
  | Task.mk i n c p :: rest => by
    intro e he
    rw [show expandT (Task.mk i n c p :: rest) =
        expandT p ++ (Exec.task (Task.mk i n c p) :: expandT rest) from by
      simp [expandT]] at he
    rcases List.mem_append.mp he with h | h
    · exact expandT_all_tasks p e h
    · rcases List.mem_cons.mp h with h | h
      · exact ⟨_, h⟩
      · exact expandT_all_tasks rest e h

/-- C9: every entry contributed by pre-task expansion is a bare `Task` (never
a `Call`), and a bare-`Task` entry is run with empty positional args and empty
kwargs — plus only the merged context prepended when the task is
contextualized. -/
theorem pre_expansion_bare_tasks :
    (∀ ts : List Task, ∀ e ∈ expandT ts, ∃ t : Task, e = Exec.task t) ∧
    (∀ t : Task,
      entryArgs (Exec.task t) = [] ∧ entryKwargs (Exec.task t) = [] ∧
      ∀ (ex : Executor) (name : Path),
        finalArgs ex name t (entryArgs (Exec.task t)) =
          if t.contextualized then [Value.ctx (contextFor ex name)] else []) := by
  refine ⟨expandT_all_tasks, fun t => ⟨rfl, rfl, fun ex name => ?_⟩⟩
  by_cases hc : t.contextualized = true <;> simp [finalArgs, entryArgs, hc]

/-- C1 (observed code behaviour at the failing input): requesting
`sub1.t1` then `sub2.t2`, *both* tasks receive a context merged with
`configuration(["sub2","t2"])` — the name variable leaked from the resolve
comprehension, i.e. the last spec's path — although
`configuration(["sub1","t1"])` differs; the first task's context carries
`k = 2` where the path used to reach it yields `k = 1`. -/
theorem execute_context_uses_last_spec_path :
    ((Executor.mk cRoot []).execute cOkBody
        [(["sub1", "t1"], []), (["sub2", "t2"], [])] true).2 =
      [⟨1, [.ctx [("k", 2)]], []⟩, ⟨2, [.ctx [("k", 2)]], []⟩] ∧
    cRoot.configuration ["sub1", "t1"] = [("k", 1)] ∧
    cRoot.configuration ["sub2", "t2"] = [("k", 2)] := by
  refine ⟨?_, by decide, by decide⟩
  have hres : resolveAll cRoot [(["sub1", "t1"], []), (["sub2", "t2"], [])] =
      .ok [⟨cTask1, [], []⟩, ⟨cTask2, [], []⟩] := by decide
  have hexp : expand_tasks [Exec.call ⟨cTask1, [], []⟩, Exec.call ⟨cTask2, [], []⟩] =
      [Exec.call ⟨cTask1, [], []⟩, Exec.call ⟨cTask2, [], []⟩] := by
    simp [expand_tasks, expandT, Exec.pre, cTask1, cTask2, Task.pre]
  rw [execute_ok_unfold (Executor.mk cRoot []) cOkBody
    [(["sub1", "t1"], []), (["sub2", "t2"], [])] true
    [⟨cTask1, [], []⟩, ⟨cTask2, [], []⟩] hres]
  simp only [List.map_cons, List.map_nil]
  rw [hexp]
  decide


/-- Witness for C4 at a concrete input: the second spec fails resolution, and
`execute` returns that failure with an empty invocation trace. -/
theorem execute_resolution_failfast_witness :
    resolveAll wColl [(["good"], []), (["missing"], [])] = .error .taskNotFound ∧
    (Executor.mk wColl []).execute wOkBody [(["good"], []), (["missing"], [])] true =
      (.error (.lookupFailure .taskNotFound), []) :=
  ⟨by decide,
   execute_resolution_failfast (Executor.mk wColl []) wOkBody
     [(["good"], []), (["missing"], [])] true .taskNotFound (by decide)⟩

/-- Witness for C5 at a concrete input: the failing pre-task (id 3) aborts the
run; the dependent task (id 4) never appears in the trace. -/
theorem runLoop_body_failure_witness :
    runLoop (Executor.mk wColl []) wFailBody []
        [Exec.task wPre, Exec.task wMain] [] [] =
      (.error (.bodyFailure "boom"), [⟨3, [], []⟩]) :=
  runLoop_body_failure (Executor.mk wColl []) wFailBody [] (Exec.task wPre)
    [Exec.task wMain] [] [] "boom" (by decide)

/-- Witness for C6 at a concrete input: the same task run twice (different
kwargs, `dedupe` off) leaves a single slot whose value is the later result. -/
theorem results_one_per_task_witness :
    mapGet (mapSet (mapSet [] wT (Value.nat 1)) wT (Value.nat 2)) wT =
      some (.nat 2) ∧
    (runLoop (Executor.mk wColl []) wBody2 []
        [Exec.call wCall1, Exec.call wCall2] [] []).1 =
      .ok (mapSet (mapSet [] wT (Value.nat 1)) wT (Value.nat 2)) :=
  ⟨results_one_per_task.1 (mapSet [] wT (Value.nat 1)) wT (.nat 2),
   results_one_per_task.2.1 (Executor.mk wColl []) wBody2 []
     (Exec.call wCall1) (Exec.call wCall2) (.nat 1) (.nat 2)
     (by decide) (by decide)⟩

/-- Witness for C7 at concrete collections: both conflicting registrations
fail with `NameConflict`, and both successful registrations keep the task and
subcollection key sets disjoint. -/
theorem task_collection_name_conflict_witness :
    wCollWithSub.add_task wTask (some "sub") [] false = .error .nameConflict ∧
    wCollWithTask.add_collection wSubColl (some "sub") = .error .nameConflict ∧
    (Collection.mk (some "root") [("x", wTask)] [("sub", wSubColl)]
      none []).keysDisjoint = true ∧
    (Collection.mk (some "root") [("sub", wTask)] [("other", wSubColl)]
      none []).keysDisjoint = true :=
  ⟨task_collection_name_conflict.1 wCollWithSub wTask (some "sub") "sub" [] false
     "sub" rfl (by decide) (by decide),
   task_collection_name_conflict.2.1 wCollWithTask wSubColl (some "sub") "sub"
     rfl (by decide),
   task_collection_name_conflict.2.2.1 wCollWithSub
     (Collection.mk (some "root") [("x", wTask)] [("sub", wSubColl)] none [])
     wTask (some "x") [] false (by decide) (by decide),
   task_collection_name_conflict.2.2.2 wCollWithTask
     (Collection.mk (some "root") [("sub", wTask)] [("other", wSubColl)] none [])
     wSubColl (some "other") (by decide) (by decide)⟩

/-- Witness for C8 at concrete collections: empty-path default and
`NoDefaultTask`, subcollection-final-segment default and `NoDefaultTask`, and
`TaskNotFound` on an unmatched segment. -/
theorem lookup_default_and_errors_witness :
    wSubColl.lookup [] = .error .noDefaultTask ∧
    wSubDef.lookup [] = .ok wDefTask ∧
    wRootC8.lookup ["subd"] = .ok wDefTask ∧
    wRootC8.lookup ["nodef"] = .error .noDefaultTask ∧
    wRootC8.lookup ["zzz"] = .error .taskNotFound :=
  ⟨lookup_default_and_errors.1 wSubColl rfl,
   lookup_default_and_errors.2.1 wSubDef "dt" wDefTask rfl (by decide),
   lookup_default_and_errors.2.2.1 wRootC8 wSubDef "subd" "dt" wDefTask
     (by decide) (by decide) rfl (by decide),
   lookup_default_and_errors.2.2.2.1 wRootC8 wSubColl "nodef"
     (by decide) (by decide) rfl,
   lookup_default_and_errors.2.2.2.2 wRootC8 "zzz" [] (by decide) (by decide)⟩

/-- Witness for C9 at a concrete input: the entry contributed by `wMain`'s
pre-task is a bare `Task` and is run with empty args and kwargs. -/
theorem pre_expansion_bare_tasks_witness :
    (∃ t : Task, Exec.task wPre = Exec.task t) ∧
    entryArgs (Exec.task wPre) = [] ∧ entryKwargs (Exec.task wPre) = [] :=
  ⟨pre_expansion_bare_tasks.1 [wMain] (Exec.task wPre)
     (by simp [expandT, wMain, wPre, Task.pre]),
   (pre_expansion_bare_tasks.2 wPre).1,
   (pre_expansion_bare_tasks.2 wPre).2.1⟩

end Invoke
